import Mathlib

/-!
Shallow embedding of the fail-fast join combinator `TryJoinAll`
(src/futures-util/src/future/try_join_all.rs) and the single-slot adapter
`ResultFuture` (src/futures-util/src/future/result.rs), together with
theorems settling the specified behavioral claims.

Asynchronous operands are modelled deterministically: an operand is a pair
of a delay (number of poll cycles before it settles) and its final
`Except` outcome.  A poll either reports `pending` or `ready` and returns
the successor state; fallible steps (Rust panics such as
`take_output().unwrap()` or `expect`) are modelled with `Option`, `none`
standing for the panic.
-/

deriving instance DecidableEq for Except

namespace FuturesRs

/-- `core::task::Poll`. -/
inductive Poll (α : Type u) where
  | pending
  | ready (a : α)
deriving DecidableEq, Repr

/-- `Poll::map`. -/
def Poll.map (f : α → β) : Poll α → Poll β
  | .pending => .pending
  | .ready a => .ready (f a)

/-- Modelled from the spec: the completion slot (`TryMaybeDone`, §3/§4.1 of
the spec), whose source file is not included under src/.  Three states:
*Pending* (`future`, owning an unresolved operand given by its delay and
final outcome), *Ready* (`done`, owning the not-yet-taken output) and
*Taken* (`gone`). -/
inductive TryMaybeDone (α ε : Type) where
  | future (delay : Nat) (res : Except ε α)
  | done (a : α)
  | gone
deriving DecidableEq, Repr

/-- Modelled from the spec: the completion slot's `advance` / `try_poll`
(§4.1).  A pending slot whose delay is exhausted settles: on success it
stores the output and transitions to Ready; on failure it returns the
error immediately (the slot is relinquished, not made Ready).  A pending
slot whose delay remains reports `pending`.  On a slot that is already
Ready or Taken, advancing is a no-op returning "already settled". -/
def TryMaybeDone.tryPoll : TryMaybeDone α ε → Poll (Except ε Unit) × TryMaybeDone α ε
  | .future 0 (.ok a) => (.ready (.ok ()), .done a)
  | .future 0 (.error e) => (.ready (.error e), .gone)
  | .future (d + 1) r => (.pending, .future d r)
  | .done a => (.ready (.ok ()), .done a)
  | .gone => (.ready (.ok ()), .gone)

/-- Modelled from the spec: the completion slot's `extract` / `take_output`
(§4.1), valid only when Ready; extracting from a Pending or Taken slot is
a contract-violation fault, modelled as `none`. -/
def TryMaybeDone.takeOutput : TryMaybeDone α ε → Option (α × TryMaybeDone α ε)
  | .done a => some (a, .gone)
  | _ => none

/-- `FinalState`, the per-cycle accumulator of `TryJoinAll::poll`
(try_join_all.rs lines 18-22). -/
inductive FinalState (ε : Type) where
  | pending
  | allDone
  | error (e : ε)
deriving DecidableEq, Repr

/-- The scan loop of `TryJoinAll::poll` for the Small representation
(try_join_all.rs lines 147-156): starting from accumulator `st`, each slot
in index order is advanced; `pending` downgrades the accumulator,
`Ok(())` leaves it, and an error sets the accumulator and breaks out of
the loop, leaving the remaining slots untouched. -/
def scanElems (st : FinalState ε) :
    List (TryMaybeDone α ε) → FinalState ε × List (TryMaybeDone α ε)
  | [] => (st, [])
  | x :: xs =>
    match x.tryPoll with
    | (.pending, x') =>
      let r := scanElems .pending xs
      (r.1, x' :: r.2)
    | (.ready (.ok _), x') =>
      let r := scanElems st xs
      (r.1, x' :: r.2)
    | (.ready (.error e), x') => (.error e, x' :: xs)

/-- Extraction of all outputs in index order, `take_output().unwrap()`
mapped over the slots (try_join_all.rs lines 160-164); `none` models the
unwrap panic on a slot that is not Ready. -/
def extractAll : List (TryMaybeDone α ε) → Option (List α)
  | [] => some []
  | x :: xs =>
    match x.takeOutput with
    | none => none
    | some (a, _) => (extractAll xs).map (a :: ·)

/-- One poll of the Small representation of `TryJoinAll`
(try_join_all.rs lines 144-172): scan all slots starting from `AllDone`;
on `Pending` keep the slots for the next cycle; on `AllDone` take the
slots (replacing them with the empty list) and extract every output in
index order; on `Error` drop all slots (replacing them with the empty
list) and report the error.  `none` models a panic. -/
def smallPoll (elems : List (TryMaybeDone α ε)) :
    Option (Poll (Except ε (List α)) × List (TryMaybeDone α ε)) :=
  match scanElems .allDone elems with
  | (.pending, elems') => some (.pending, elems')
  | (.allDone, elems') =>
    match extractAll elems' with
    | some results => some (.ready (.ok results), [])
    | none => none
  | (.error e, _) => some (.ready (.error e), [])

/-- The error reported by a slot's poll this cycle, if any. -/
def pollErr : Poll (Except ε Unit) → Option ε
  | .ready (.error e) => some e
  | _ => none

/-- Whether a slot's poll reported `pending` this cycle. -/
def pollPending : Poll (Except ε Unit) → Bool
  | .pending => true
  | _ => false

/-- Modelled from the spec: one poll of the Big representation, i.e. the
unbounded ordered join driver (`FuturesOrdered` + `try_collect`, §4.3),
whose source is not included under src/.  Per its contract it polls the
whole collection each cycle (no early break), yields "not yet done" while
some operand is unresolved, success with the full ordered output list once
every operand has completed successfully, and otherwise the first failure
of the cycle — matching the fixed-capacity driver's failure priority
(lowest index within the cycle), as §4.3 requires. -/
def bigPoll (elems : List (TryMaybeDone α ε)) :
    Option (Poll (Except ε (List α)) × List (TryMaybeDone α ε)) :=
  match (elems.map TryMaybeDone.tryPoll).findSome? (fun pr => pollErr pr.1) with
  | some e => some (.ready (.error e), [])
  | none =>
    if (elems.map TryMaybeDone.tryPoll).any (fun pr => pollPending pr.1) then
      some (.pending, (elems.map TryMaybeDone.tryPoll).map Prod.snd)
    else
      match extractAll ((elems.map TryMaybeDone.tryPoll).map Prod.snd) with
      | some results => some (.ready (.ok results), [])
      | none => none

/-- The two representations of `TryJoinAll` (try_join_all.rs lines 33-43):
`small` owns the slots directly, `big` owns the unbounded driver (here
modelled by the same slot state). -/
inductive TryJoinAllKind (α ε : Type) where
  | small (elems : List (TryMaybeDone α ε))
  | big (elems : List (TryMaybeDone α ε))
deriving DecidableEq, Repr

/-- Wrap each operand (delay, outcome) into a Pending slot, as
`iter.map(TryMaybeDone::Future)` does (try_join_all.rs line 124). -/
def mkSlots (ops : List (Nat × Except ε α)) : List (TryMaybeDone α ε) :=
  ops.map fun p => .future p.1 p.2

/-- The constructor `try_join_all` (try_join_all.rs lines 118-129): the
representation is picked from the iterator's size hint.  The small-batch
threshold `join_all::SMALL` lives in a source file not included under
src/; modelled from the spec (§9: a configurable tuning constant) as the
parameter `thr`. -/
def tryJoinAll (thr : Nat) (hint : Option Nat) (ops : List (Nat × Except ε α)) :
    TryJoinAllKind α ε :=
  match hint with
  | none => .big (mkSlots ops)
  | some max => if max ≤ thr then .small (mkSlots ops) else .big (mkSlots ops)

/-- `TryJoinAll::poll` (try_join_all.rs lines 142-175): forwards to
whichever representation is active; the representation never changes. -/
def TryJoinAllKind.poll : TryJoinAllKind α ε →
    Option (Poll (Except ε (List α)) × TryJoinAllKind α ε)
  | .small elems => (smallPoll elems).map fun p => (p.1, .small p.2)
  | .big elems => (bigPoll elems).map fun p => (p.1, .big p.2)

/-- Drive a `TryJoinAll` with up to `fuel` poll cycles; `none` means the
fuel ran out (the combinator is still pending) or a poll panicked. -/
def TryJoinAllKind.run : Nat → TryJoinAllKind α ε → Option (Except ε (List α))
  | 0, _ => none
  | fuel + 1, k =>
    match k.poll with
    | none => none
    | some (.ready r, _) => some r
    | some (.pending, k') => TryJoinAllKind.run fuel k'

/-- Whether the Small representation is active. -/
def TryJoinAllKind.isSmall : TryJoinAllKind α ε → Bool
  | .small _ => true
  | .big _ => false

/-- Abstract view of a slot holding an operand that can only succeed:
`(some d, a)` is a Pending slot with `d` cycles left before it yields `a`,
`(none, a)` is a Ready slot holding `a`. -/
def toSlot : Option Nat × α → TryMaybeDone α ε
  | (some d, a) => .future d (.ok a)
  | (none, a) => .done a

/-- One poll cycle acting on the abstract view of a success-only slot. -/
def stepSlot : Option Nat × α → Option Nat × α
  | (some (d + 1), a) => (some d, a)
  | (some 0, a) => (none, a)
  | (none, a) => (none, a)

/-- Whether a success-only slot still reports `pending` this cycle. -/
def waiting : Option Nat × α → Bool
  | (some (_ + 1), _) => true
  | _ => false

/-- Poll cycles after the next one before a success-only slot reports
ready. -/
def cyclesLeft : Option Nat × α → Nat
  | (some d, _) => d
  | (none, _) => 0

/-- Extra poll cycles (beyond the first) needed before every success-only
slot of the list reports ready. -/
def maxCycles (l : List (Option Nat × α)) : Nat :=
  l.foldr (fun p n => max (cyclesLeft p) n) 0

/-- The largest operand delay of a list of operands. -/
def maxDelay (ops : List (Nat × α)) : Nat :=
  ops.foldr (fun p n => max p.1 n) 0

end FuturesRs

namespace FuturesRs

/-- A deterministic model of an infallible inner future for `ResultFuture`:
`delay` poll cycles of `pending`, then `ready value`; `terminated` is its
`FusedFuture::is_terminated` report. -/
structure MockFuture (α : Type) where
  delay : Nat
  value : α
  terminated : Bool
deriving DecidableEq, Repr

/-- Polling a `MockFuture`. -/
def MockFuture.poll : MockFuture α → Poll α × MockFuture α
  | ⟨0, v, t⟩ => (.ready v, ⟨0, v, t⟩)
  | ⟨d + 1, v, t⟩ => (.pending, ⟨d, v, t⟩)

/-- `ResultFuture` (result.rs lines 28-32): a future representing either
success or failure, with `inner : Result<F, Option<E>>`. -/
structure ResultFuture (F ε : Type) where
  inner : Except (Option ε) F
deriving DecidableEq, Repr

/-- The `From<Result<F, E>>` construction (result.rs lines 67-71):
`inner = result.map_err(Some)`. -/
def ResultFuture.fromResult (r : Except ε F) : ResultFuture F ε :=
  ⟨r.mapError some⟩

/-- `ResultFuture::poll` (result.rs lines 40-51), parametrized by the
inner future's poll: the success side forwards the poll and wraps the
output in `Ok`; the failure side takes the stored error, `none` modelling
the `expect` panic "polled ResultFuture after completion". -/
def ResultFuture.poll (pollF : F → Poll α × F) :
    ResultFuture F ε → Option (Poll (Except ε α) × ResultFuture F ε)
  | ⟨.ok x⟩ =>
    let r := pollF x
    some (r.1.map Except.ok, ⟨.ok r.2⟩)
  | ⟨.error (some e)⟩ => some (.ready (.error e), ⟨.error none⟩)
  | ⟨.error none⟩ => none

/-- `ResultFuture::is_terminated` (result.rs lines 54-64), parametrized by
the inner future's `is_terminated`. -/
def ResultFuture.isTerminated (termF : F → Bool) : ResultFuture F ε → Bool
  | ⟨.ok x⟩ => termF x
  | ⟨.error _⟩ => true

end FuturesRs

namespace FuturesRs

/-! ### Characterization of one scan cycle -/

theorem scanElems_no_err (st : FinalState ε) (elems : List (TryMaybeDone α ε))
    (h : ∀ x ∈ elems, pollErr x.tryPoll.1 = none) :
    scanElems st elems =
      ((if elems.any (fun x => pollPending x.tryPoll.1) then .pending else st),
        elems.map (fun x => x.tryPoll.2)) := by
  induction elems generalizing st with
  | nil => simp [scanElems]
  | cons x xs ih =>
    have hx : pollErr x.tryPoll.1 = none := h x (by simp)
    have hxs : ∀ y ∈ xs, pollErr y.tryPoll.1 = none := fun y hy => h y (by simp [hy])
    rcases hp : x.tryPoll with ⟨p, x'⟩
    cases p with
    | pending =>
      simp only [scanElems, hp, ih .pending hxs, List.any_cons, List.map_cons]
      simp [hp, pollPending]
    | ready r =>
      cases r with
      | ok u =>
        simp only [scanElems, hp, ih st hxs, List.any_cons, List.map_cons]
        simp [hp, pollPending]
      | error e =>
        exfalso
        rw [hp] at hx
        simp [pollErr] at hx

theorem scanElems_first_err (st : FinalState ε) (pre post : List (TryMaybeDone α ε))
    (x x' : TryMaybeDone α ε) (e : ε)
    (hpre : ∀ y ∈ pre, pollErr y.tryPoll.1 = none)
    (hx : x.tryPoll = (.ready (.error e), x')) :
    scanElems st (pre ++ x :: post) =
      (.error e, pre.map (fun y => y.tryPoll.2) ++ x' :: post) := by
  induction pre generalizing st with
  | nil => simp [scanElems, hx]
  | cons y ys ih =>
    have hy : pollErr y.tryPoll.1 = none := hpre y (by simp)
    have hys : ∀ z ∈ ys, pollErr z.tryPoll.1 = none := fun z hz => hpre z (by simp [hz])
    rcases hp : y.tryPoll with ⟨p, y'⟩
    cases p with
    | pending => simp [scanElems, hp, ih .pending hys]
    | ready r =>
      cases r with
      | ok u => simp [scanElems, hp, ih st hys]
      | error e => exfalso; rw [hp] at hy; simp [pollErr] at hy

theorem exists_first_err (elems : List (TryMaybeDone α ε)) :
    (∀ x ∈ elems, pollErr x.tryPoll.1 = none) ∨
      ∃ pre x post e, elems = pre ++ x :: post ∧
        (∀ y ∈ pre, pollErr y.tryPoll.1 = none) ∧ pollErr x.tryPoll.1 = some e := by
  induction elems with
  | nil => left; intro x hx; cases hx
  | cons x xs ih =>
    rcases he : pollErr x.tryPoll.1 with _ | e
    · rcases ih with h | ⟨pre, z, post, e, rfl, hpre, hz⟩
      · left
        intro y hy
        rcases List.mem_cons.mp hy with rfl | hy
        · exact he
        · exact h y hy
      · right
        refine ⟨x :: pre, z, post, e, rfl, ?_, hz⟩
        intro y hy
        rcases List.mem_cons.mp hy with rfl | hy
        · exact he
        · exact hpre y hy
    · right
      refine ⟨[], x, xs, e, rfl, ?_, he⟩
      intro y hy
      cases hy

theorem findSome_first (f : β → Option ε) (pre : List β) (x : β) (post : List β) (e : ε)
    (hpre : ∀ y ∈ pre, f y = none) (hx : f x = some e) :
    List.findSome? f (pre ++ x :: post) = some e := by
  induction pre with
  | nil => simp [List.findSome?, hx]
  | cons y ys ih =>
    have hy : f y = none := hpre y (by simp)
    have hys : ∀ z ∈ ys, f z = none := fun z hz => hpre z (by simp [hz])
    simp [List.findSome?, hy, ih hys]

theorem findSome_none (f : β → Option ε) (l : List β) (h : ∀ y ∈ l, f y = none) :
    List.findSome? f l = none := by
  induction l with
  | nil => simp [List.findSome?]
  | cons y ys ih =>
    have hy : f y = none := h y (by simp)
    simp [List.findSome?, hy, ih fun z hz => h z (by simp [hz])]

theorem any_map_comp (f : β → γ) (p : γ → Bool) (l : List β) :
    (l.map f).any p = l.any (fun x => p (f x)) := by
  induction l with
  | nil => rfl
  | cons x xs ih => simp [List.any_cons, ih]

theorem pollErr_eq_some {p : Poll (Except ε Unit)} {e : ε} (h : pollErr p = some e) :
    p = .ready (.error e) := by
  cases p with
  | pending => simp [pollErr] at h
  | ready r =>
    cases r with
    | ok u => simp [pollErr] at h
    | error f =>
      simp [pollErr] at h
      rw [h]

/-! ### The Small and Big drivers agree cycle by cycle -/

theorem smallPoll_eq_bigPoll (elems : List (TryMaybeDone α ε)) :
    smallPoll elems = bigPoll elems := by
  rcases exists_first_err elems with h | ⟨pre, x, post, e, rfl, hpre, hx⟩
  · have hscan := scanElems_no_err .allDone elems h
    have hfind : List.findSome? (fun pr => pollErr pr.1) (elems.map TryMaybeDone.tryPoll)
        = none := by
      apply findSome_none
      intro y hy
      rcases List.mem_map.mp hy with ⟨z, hz, rfl⟩
      exact h z hz
    have hany : (elems.map TryMaybeDone.tryPoll).any (fun pr => pollPending pr.1)
        = elems.any (fun z => pollPending z.tryPoll.1) := by
      rw [any_map_comp]
    have hmap : (elems.map TryMaybeDone.tryPoll).map Prod.snd
        = elems.map (fun z => z.tryPoll.2) := by
      rw [List.map_map]
      rfl
    unfold smallPoll bigPoll
    rw [hscan, hfind, hany, hmap]
    cases hp : elems.any (fun z => pollPending z.tryPoll.1) with
    | true => simp [hp]
    | false => simp [hp]
  · have hx' : x.tryPoll = (.ready (.error e), x.tryPoll.2) := by
      have := pollErr_eq_some hx
      rcases hq : x.tryPoll with ⟨p, y⟩
      rw [hq] at this
      simp at this
      rw [this]
    have hscan := scanElems_first_err .allDone pre post x x.tryPoll.2 e hpre hx'
    have hfind : List.findSome? (fun pr => pollErr pr.1)
        ((pre ++ x :: post).map TryMaybeDone.tryPoll) = some e := by
      rw [List.map_append, List.map_cons]
      apply findSome_first
      · intro y hy
        rcases List.mem_map.mp hy with ⟨z, hz, rfl⟩
        exact hpre z hz
      · exact hx
    unfold smallPoll bigPoll
    rw [hscan, hfind]

theorem run_small_eq_run_big (fuel : Nat) (elems : List (TryMaybeDone α ε)) :
    (TryJoinAllKind.small elems).run fuel = (TryJoinAllKind.big elems).run fuel := by
  induction fuel generalizing elems with
  | zero => rfl
  | succ n ih =>
    unfold TryJoinAllKind.run
    have h1 : (TryJoinAllKind.small elems).poll
        = (bigPoll elems).map (fun p => (p.1, TryJoinAllKind.small p.2)) := by
      show (smallPoll elems).map (fun p => (p.1, TryJoinAllKind.small p.2)) = _
      rw [smallPoll_eq_bigPoll]
    have h2 : (TryJoinAllKind.big elems).poll
        = (bigPoll elems).map (fun p => (p.1, TryJoinAllKind.big p.2)) := rfl
    rw [h1, h2]
    rcases hb : bigPoll elems with _ | ⟨p, elems'⟩
    · rfl
    · cases p with
      | pending => simpa [Option.map] using ih elems'
      | ready r => rfl

/-! ### Runs in which every operand succeeds -/

theorem tryPoll_toSlot (p : Option Nat × α) :
    (toSlot (ε := ε) p).tryPoll
      = ((if waiting p then .pending else .ready (.ok ())), toSlot (stepSlot p)) := by
  rcases p with ⟨d, a⟩
  rcases d with _ | d
  · rfl
  · rcases d with _ | d
    · rfl
    · rfl

theorem scanElems_success (st : FinalState ε) (l : List (Option Nat × α)) :
    scanElems st (l.map toSlot)
      = ((if l.any waiting then .pending else st), (l.map stepSlot).map toSlot) := by
  have h : ∀ x ∈ l.map (toSlot (ε := ε)), pollErr x.tryPoll.1 = none := by
    intro x hx
    rcases List.mem_map.mp hx with ⟨p, hp, rfl⟩
    rw [tryPoll_toSlot]
    cases hw : waiting p <;> simp [pollErr]
  rw [scanElems_no_err st _ h]
  have h1 : (l.map (toSlot (ε := ε))).any (fun x => pollPending x.tryPoll.1)
      = l.any waiting := by
    rw [any_map_comp]
    congr 1
    funext p
    rw [tryPoll_toSlot]
    cases hw : waiting p <;> simp [pollPending]
  have h2 : (l.map (toSlot (ε := ε))).map (fun x => x.tryPoll.2)
      = (l.map stepSlot).map toSlot := by
    rw [List.map_map, List.map_map]
    congr 1
    funext p
    show (toSlot p).tryPoll.2 = toSlot (stepSlot p)
    rw [tryPoll_toSlot]
  rw [h1, h2]

theorem extractAll_success (l : List (Option Nat × α)) (h : ∀ p ∈ l, waiting p = false) :
    extractAll ((l.map stepSlot).map (toSlot (ε := ε))) = some (l.map Prod.snd) := by
  induction l with
  | nil => rfl
  | cons p ps ih =>
    have hp : waiting p = false := h p (by simp)
    have hdone : toSlot (ε := ε) (stepSlot p) = .done p.2 := by
      rcases p with ⟨d, a⟩
      rcases d with _ | d
      · rfl
      · rcases d with _ | d
        · rfl
        · simp [waiting] at hp
    simp only [List.map_cons, extractAll, hdone, TryMaybeDone.takeOutput,
      ih fun q hq => h q (by simp [hq])]
    rfl

theorem cyclesLeft_stepSlot (p : Option Nat × α) :
    cyclesLeft (stepSlot p) = cyclesLeft p - 1 := by
  rcases p with ⟨d, a⟩
  rcases d with _ | d
  · rfl
  · rcases d with _ | d <;> rfl

theorem maxCycles_stepSlot (l : List (Option Nat × α)) :
    maxCycles (l.map stepSlot) = maxCycles l - 1 := by
  induction l with
  | nil => rfl
  | cons p ps ih =>
    show max (cyclesLeft (stepSlot p)) (maxCycles (ps.map stepSlot))
        = max (cyclesLeft p) (maxCycles ps) - 1
    rw [ih, cyclesLeft_stepSlot]
    omega

theorem cyclesLeft_le_maxCycles (l : List (Option Nat × α)) (p : Option Nat × α)
    (hp : p ∈ l) : cyclesLeft p ≤ maxCycles l := by
  induction l with
  | nil => cases hp
  | cons q qs ih =>
    have hm : maxCycles (q :: qs) = max (cyclesLeft q) (maxCycles qs) := rfl
    rcases List.mem_cons.mp hp with rfl | hp
    · rw [hm]; omega
    · have := ih hp
      rw [hm]; omega

theorem maxCycles_pos_of_waiting (l : List (Option Nat × α))
    (h : l.any waiting = true) : 1 ≤ maxCycles l := by
  rcases List.any_eq_true.mp h with ⟨p, hp, hw⟩
  have h1 : 1 ≤ cyclesLeft p := by
    rcases p with ⟨d, a⟩
    rcases d with _ | d
    · simp [waiting] at hw
    · rcases d with _ | d
      · simp [waiting] at hw
      · simp [cyclesLeft]
  exact le_trans h1 (cyclesLeft_le_maxCycles l p hp)

theorem smallPoll_success (l : List (Option Nat × α)) :
    smallPoll (l.map (toSlot (ε := ε)))
      = (if l.any waiting then some (.pending, (l.map stepSlot).map toSlot)
         else some (.ready (.ok (l.map Prod.snd)), [])) := by
  unfold smallPoll
  rw [scanElems_success]
  cases hw : l.any waiting with
  | true => simp [hw]
  | false =>
    have hall : ∀ p ∈ l, waiting p = false := fun p hp => by
      simpa using List.any_eq_false.mp hw p hp
    have hext := extractAll_success (ε := ε) l hall
    rw [List.map_map] at hext
    simp [hw, hext]

theorem run_small_success (fuel : Nat) (l : List (Option Nat × α))
    (h : maxCycles l < fuel) :
    (TryJoinAllKind.small (l.map (toSlot (ε := ε)))).run fuel
      = some (.ok (l.map Prod.snd)) := by
  induction fuel generalizing l with
  | zero => omega
  | succ n ih =>
    unfold TryJoinAllKind.run
    have hpoll : (TryJoinAllKind.small (l.map (toSlot (ε := ε)))).poll
        = (smallPoll (l.map toSlot)).map fun p => (p.1, TryJoinAllKind.small p.2) := rfl
    rw [hpoll, smallPoll_success]
    cases hw : l.any waiting with
    | false => simp
    | true =>
      have h1 : maxCycles (l.map stepSlot) < n := by
        have h2 := maxCycles_pos_of_waiting l hw
        have h3 := maxCycles_stepSlot l
        omega
      have h4 := ih (l.map stepSlot) h1
      have h5 : (l.map stepSlot).map Prod.snd = l.map Prod.snd := by
        rw [List.map_map]
        congr 1
        funext p
        rcases p with ⟨d, a⟩
        rcases d with _ | d
        · rfl
        · rcases d with _ | d <;> rfl
      rw [h5] at h4
      simpa using h4

theorem mkSlots_ok (ops : List (Nat × α)) :
    mkSlots (ops.map fun p => (p.1, (Except.ok p.2 : Except ε α)))
      = (ops.map fun p => ((some p.1 : Option Nat), p.2)).map toSlot := by
  unfold mkSlots
  rw [List.map_map, List.map_map]
  rfl

theorem maxCycles_of_delays (ops : List (Nat × α)) :
    maxCycles (ops.map fun p => ((some p.1 : Option Nat), p.2)) = maxDelay ops := by
  induction ops with
  | nil => rfl
  | cons p ps ih =>
    have h1 : maxCycles ((p :: ps).map fun q => ((some q.1 : Option Nat), q.2))
        = max (cyclesLeft ((some p.1 : Option Nat), p.2))
            (maxCycles (ps.map fun q => ((some q.1 : Option Nat), q.2))) := rfl
    have h2 : maxDelay (p :: ps) = max p.1 (maxDelay ps) := rfl
    rw [h1, h2, ih]
    rfl

theorem snd_of_delays (ops : List (Nat × α)) :
    (ops.map fun p => ((some p.1 : Option Nat), p.2)).map Prod.snd
      = ops.map Prod.snd := by
  rw [List.map_map]
  rfl

theorem smallPoll_ready_state (elems st : List (TryMaybeDone α ε))
    (r : Except ε (List α)) (h : smallPoll elems = some (.ready r, st)) :
    st = [] := by
  unfold smallPoll at h
  rcases hs : scanElems .allDone elems with ⟨fs, elems'⟩
  rw [hs] at h
  cases fs with
  | pending => simp at h
  | allDone =>
    have h' : (match extractAll elems' with
        | some results =>
          some (Poll.ready (Except.ok results), ([] : List (TryMaybeDone α ε)))
        | none => none) = some (Poll.ready r, st) := h
    rcases hx : extractAll elems' with _ | res
    · rw [hx] at h'; simp at h'
    · rw [hx] at h'
      simp at h'
      exact h'.2
  | error e =>
    simp at h
    exact h.2

theorem bigPoll_ready_state (elems st : List (TryMaybeDone α ε))
    (r : Except ε (List α)) (h : bigPoll elems = some (.ready r, st)) :
    st = [] := by
  rw [← smallPoll_eq_bigPoll] at h
  exact smallPoll_ready_state elems st r h

theorem tryJoinAll_none (thr : Nat) (ops : List (Nat × Except ε α)) :
    tryJoinAll thr none ops = .big (mkSlots ops) := rfl

theorem tryJoinAll_some_le (thr m : Nat) (ops : List (Nat × Except ε α))
    (hm : m ≤ thr) : tryJoinAll thr (some m) ops = .small (mkSlots ops) := by
  simp only [tryJoinAll]
  rw [if_pos hm]

theorem tryJoinAll_some_gt (thr m : Nat) (ops : List (Nat × Except ε α))
    (hm : ¬m ≤ thr) : tryJoinAll thr (some m) ops = .big (mkSlots ops) := by
  simp only [tryJoinAll]
  rw [if_neg hm]

/-! ### The claims -/

/-- C1: for every finite sequence of operand futures in which every
operand eventually succeeds (here: operand `i` is given by a delay and a
success value), polling the `TryJoinAll` combinator to completion yields
success with the sequence of operand outputs in exactly the original
submission order, whatever the individual completion delays (hence
whatever the actual completion order) and whatever representation the
size hint selects. -/
theorem all_success_in_order (thr : Nat) (hint : Option Nat) (ops : List (Nat × α)) :
    (tryJoinAll thr hint (ops.map fun p => (p.1, (Except.ok p.2 : Except ε α)))).run
        (maxDelay ops + 1)
      = some (.ok (ops.map Prod.snd)) := by
  have key : (TryJoinAllKind.small
        (mkSlots (ops.map fun p => (p.1, (Except.ok p.2 : Except ε α))))).run
        (maxDelay ops + 1)
      = some (.ok (ops.map Prod.snd)) := by
    rw [mkSlots_ok]
    have h := run_small_success (ε := ε) (maxDelay ops + 1)
      (ops.map fun p => ((some p.1 : Option Nat), p.2))
      (by rw [maxCycles_of_delays]; omega)
    rw [snd_of_delays] at h
    exact h
  cases hint with
  | none =>
    rw [tryJoinAll_none, ← run_small_eq_run_big]
    exact key
  | some m =>
    by_cases hm : m ≤ thr
    · rw [tryJoinAll_some_le thr m _ hm]
      exact key
    · rw [tryJoinAll_some_gt thr m _ hm, ← run_small_eq_run_big]
      exact key

/-- C2: in a poll cycle of the Small driver in which a still-pending slot
fails and no slot before it reports an error, the scan reports exactly
that first error and stops at that slot: the slots at later indices are
left untouched this cycle (so later failures in the same cycle, as in the
`post` list here, are never observed), and the driver reports that error
as the final outcome. -/
theorem first_failure_in_cycle_wins (pre post : List (TryMaybeDone α ε)) (e : ε)
    (hpre : ∀ y ∈ pre, pollErr y.tryPoll.1 = none) :
    scanElems .allDone (pre ++ .future 0 (.error e) :: post)
        = (.error e, pre.map (fun y => y.tryPoll.2) ++ .gone :: post) ∧
    smallPoll (pre ++ .future 0 (.error e) :: post)
        = some (.ready (.error e), []) := by
  have hx : (TryMaybeDone.future 0 (Except.error e) : TryMaybeDone α ε).tryPoll
      = (.ready (.error e), .gone) := rfl
  have hscan := scanElems_first_err .allDone pre post _ .gone e hpre hx
  refine ⟨hscan, ?_⟩
  unfold smallPoll
  rw [hscan]

theorem first_failure_in_cycle_wins_witness :
    scanElems .allDone
        ([TryMaybeDone.future 1 (Except.ok 0), TryMaybeDone.done 3]
          ++ TryMaybeDone.future 0 (Except.error 7)
          :: [TryMaybeDone.future 0 (Except.error 9), TryMaybeDone.future 2 (Except.ok 5)])
        = (.error 7,
            [TryMaybeDone.future 0 (Except.ok 0), TryMaybeDone.done 3]
              ++ TryMaybeDone.gone
              :: [TryMaybeDone.future 0 (Except.error 9),
                  TryMaybeDone.future 2 (Except.ok (5 : Nat))]) ∧
    smallPoll
        ([TryMaybeDone.future 1 (Except.ok 0), TryMaybeDone.done 3]
          ++ TryMaybeDone.future 0 (Except.error 7)
          :: [TryMaybeDone.future 0 (Except.error 9), TryMaybeDone.future 2 (Except.ok 5)])
        = some (.ready (.error (7 : Nat)), []) :=
  first_failure_in_cycle_wins
    [TryMaybeDone.future 1 (Except.ok 0), TryMaybeDone.done 3]
    [TryMaybeDone.future 0 (Except.error 9), TryMaybeDone.future 2 (Except.ok 5)]
    7 (by decide)

/-- C3: whenever the scan of a poll cycle ends in a failure, the Small
driver's poll delivers exactly that one error value and no partial output
sequence, and every slot — still-pending ones and outputs already Ready
from earlier cycles alike — is dropped (the slot list is replaced by the
empty batch, so the abandoned operands are never polled again). -/
theorem failure_drops_everything (elems : List (TryMaybeDone α ε)) (e : ε)
    (h : (scanElems .allDone elems).1 = .error e) :
    smallPoll elems = some (.ready (.error e), []) := by
  unfold smallPoll
  rcases hs : scanElems .allDone elems with ⟨st, elems'⟩
  rw [hs] at h
  simp at h
  subst h
  rfl

theorem failure_drops_everything_witness :
    smallPoll [TryMaybeDone.done 1, TryMaybeDone.future 0 (Except.error 4),
        TryMaybeDone.future 3 (Except.ok 2)]
      = some (.ready (.error (4 : Nat)), ([] : List (TryMaybeDone Nat Nat))) :=
  failure_drops_everything _ 4 (by decide)

/-- C4 counterexample: the claim demands that polling again after a final
outcome faults (panic/abort, modelled by `none`); on the code it does not.
A Small combinator with one immediately-succeeding operand reports its
final outcome and leaves the empty batch behind; polling that again
silently returns a fresh `Ready(Ok([]))` instead of faulting. -/
theorem poll_after_final_counterexample :
    (TryJoinAllKind.small [TryMaybeDone.future 0 (Except.ok (5 : Nat))]
        : TryJoinAllKind Nat Nat).poll
      = some (.ready (.ok [5]), .small []) ∧
    (TryJoinAllKind.small ([] : List (TryMaybeDone Nat Nat))).poll
      = some (.ready (.ok []), .small []) ∧
    (TryJoinAllKind.small ([] : List (TryMaybeDone Nat Nat))).poll ≠ none :=
  ⟨by decide, by decide, by decide⟩

/-- C4 (amended): once a `TryJoinAll` combinator has reported a final
outcome (success or failure), its slots have been replaced by the empty
batch; polling it again is not a fault — it silently returns success with
an empty output sequence (and leaves the state unchanged). -/
theorem poll_after_final_returns_empty (k k' : TryJoinAllKind α ε)
    (r : Except ε (List α)) (h : k.poll = some (.ready r, k')) :
    k'.poll = some (.ready (.ok []), k') := by
  cases k with
  | small elems =>
    have hh : (smallPoll elems).map (fun p => (p.1, TryJoinAllKind.small p.2))
        = some (.ready r, k') := h
    rcases hsp : smallPoll elems with _ | ⟨p, elems'⟩
    · rw [hsp] at hh; simp at hh
    · rw [hsp] at hh
      simp at hh
      obtain ⟨hp, hk⟩ := hh
      have hst : elems' = [] :=
        smallPoll_ready_state elems elems' r (by rw [hsp, hp])
      subst hst
      rw [← hk]
      rfl
  | big elems =>
    have hh : (bigPoll elems).map (fun p => (p.1, TryJoinAllKind.big p.2))
        = some (.ready r, k') := h
    rcases hsp : bigPoll elems with _ | ⟨p, elems'⟩
    · rw [hsp] at hh; simp at hh
    · rw [hsp] at hh
      simp at hh
      obtain ⟨hp, hk⟩ := hh
      have hst : elems' = [] :=
        bigPoll_ready_state elems elems' r (by rw [hsp, hp])
      subst hst
      rw [← hk]
      rfl

theorem poll_after_final_returns_empty_witness :
    (TryJoinAllKind.small ([] : List (TryMaybeDone Nat Nat))).poll
      = some (.ready (.ok []), .small []) :=
  poll_after_final_returns_empty
    (.small [TryMaybeDone.future 0 (Except.ok 5)]) (.small []) (.ok [5]) (by decide)

/-- C5: representation transparency — for a fixed operand sequence,
constructing the combinator with the Small representation and with the
Big representation (varying only the size hint) yields identical outward
results under any number of poll cycles: same final success sequence or
same first error. -/
theorem representation_transparency (thr : Nat) (h1 h2 : Option Nat)
    (ops : List (Nat × Except ε α)) (fuel : Nat) :
    (tryJoinAll thr h1 ops).run fuel = (tryJoinAll thr h2 ops).run fuel := by
  have key : ∀ hint : Option Nat,
      (tryJoinAll thr hint ops).run fuel
        = (TryJoinAllKind.big (mkSlots ops)).run fuel := by
    intro hint
    cases hint with
    | none => rw [tryJoinAll_none]
    | some m =>
      by_cases hm : m ≤ thr
      · rw [tryJoinAll_some_le thr m _ hm]
        exact run_small_eq_run_big fuel _
      · rw [tryJoinAll_some_gt thr m _ hm]
  rw [key h1, key h2]

/-- C6: at construction the representation is chosen from the size hint —
a present upper bound at or below the threshold builds the Small driver,
an absent or larger bound builds the Big driver — and polling never
changes the representation afterward. -/
theorem mode_selection (thr : Nat) (ops : List (Nat × Except ε α)) :
    (∀ m, m ≤ thr → tryJoinAll thr (some m) ops = .small (mkSlots ops)) ∧
    (∀ m, thr < m → tryJoinAll thr (some m) ops = .big (mkSlots ops)) ∧
    tryJoinAll thr none ops = .big (mkSlots ops) ∧
    (∀ (k k' : TryJoinAllKind α ε) p, k.poll = some (p, k') →
      k'.isSmall = k.isSmall) := by
  refine ⟨fun m hm => tryJoinAll_some_le thr m _ hm,
    fun m hm => tryJoinAll_some_gt thr m _ (by omega),
    tryJoinAll_none thr ops, ?_⟩
  intro k k' p h
  cases k with
  | small elems =>
    rcases hsp : smallPoll elems with _ | ⟨q, elems'⟩
    · have hnone : (TryJoinAllKind.small elems).poll = none := by
        show (smallPoll elems).map _ = none
        rw [hsp]
        rfl
      rw [hnone] at h
      cases h
    · have hsome : (TryJoinAllKind.small elems).poll = some (q, .small elems') := by
        show (smallPoll elems).map _ = some _
        rw [hsp]
        rfl
      rw [hsome] at h
      injection h with h'
      have h2 := congrArg Prod.snd h'
      simp at h2
      rw [← h2]
      rfl
  | big elems =>
    rcases hsp : bigPoll elems with _ | ⟨q, elems'⟩
    · have hnone : (TryJoinAllKind.big elems).poll = none := by
        show (bigPoll elems).map _ = none
        rw [hsp]
        rfl
      rw [hnone] at h
      cases h
    · have hsome : (TryJoinAllKind.big elems).poll = some (q, .big elems') := by
        show (bigPoll elems).map _ = some _
        rw [hsp]
        rfl
      rw [hsome] at h
      injection h with h'
      have h2 := congrArg Prod.snd h'
      simp at h2
      rw [← h2]
      rfl

theorem mode_selection_witness :
    tryJoinAll 30 (some 2) [(0, (Except.ok 1 : Except Nat Nat))]
        = TryJoinAllKind.small (mkSlots [(0, Except.ok 1)]) ∧
    tryJoinAll 1 (some 2) [(0, (Except.ok 1 : Except Nat Nat))]
        = TryJoinAllKind.big (mkSlots [(0, Except.ok 1)]) ∧
    (TryJoinAllKind.small [TryMaybeDone.future 0 (Except.ok (3 : Nat))]
        : TryJoinAllKind Nat Nat).isSmall
      = (TryJoinAllKind.small [TryMaybeDone.future 1 (Except.ok (3 : Nat))]
        : TryJoinAllKind Nat Nat).isSmall :=
  ⟨(mode_selection 30 [(0, Except.ok 1)]).1 2 (by decide),
    (mode_selection 1 [(0, Except.ok 1)]).2.1 2 (by decide),
    (mode_selection 0 ([] : List (Nat × Except Nat Nat))).2.2.2
      (.small [TryMaybeDone.future 1 (Except.ok 3)])
      (.small [TryMaybeDone.future 0 (Except.ok 3)]) .pending (by decide)⟩

/-- C7: zero operands — for the empty operand sequence, the first poll of
the combinator immediately yields success with an empty output sequence,
under either representation the size hint selects. -/
theorem empty_operands_immediate_success (thr : Nat) (hint : Option Nat) :
    (tryJoinAll thr hint ([] : List (Nat × Except ε α))).run 1
      = some (.ok []) := by
  cases hint with
  | none => rfl
  | some m =>
    by_cases hm : m ≤ thr
    · rw [tryJoinAll_some_le thr m _ hm]
      rfl
    · rw [tryJoinAll_some_gt thr m _ hm]
      rfl

/-- C8: a `ResultFuture` built from the success side holding an async
operation forwards every poll to that operation and wraps its output in
success (staying on the success side), while one built from the failure
side resolves ready with the stored error value on its first poll. -/
theorem result_future_poll_contract (pollF : F → Poll α × F) (f : F) (e : ε) :
    ResultFuture.poll pollF (ResultFuture.fromResult (.ok f) : ResultFuture F ε)
        = some ((pollF f).1.map Except.ok, ⟨.ok (pollF f).2⟩) ∧
    ResultFuture.poll pollF (ResultFuture.fromResult (.error e) : ResultFuture F ε)
        = some (.ready (.error e), ⟨.error none⟩) :=
  ⟨rfl, rfl⟩

/-- C9: a `ResultFuture` built from the failure side reports its error
exactly once — the first poll yields the error and consumes it, and
polling the resulting state again is a fault (the `expect` panic,
modelled by `none`), not a recoverable result. -/
theorem error_reported_exactly_once (pollF : F → Poll α × F) (e : ε) :
    ResultFuture.poll pollF (ResultFuture.fromResult (.error e) : ResultFuture F ε)
        = some (.ready (.error e), ⟨.error none⟩) ∧
    ResultFuture.poll pollF (⟨.error none⟩ : ResultFuture F ε) = none :=
  ⟨rfl, rfl⟩

/-- C10: `is_terminated` of a `ResultFuture` built from the failure side
is true before it is ever polled and stays true after the error has been
consumed; for one built from the success side it equals the inner
operation's `is_terminated`. -/
theorem is_terminated_contract (termF : F → Bool) (f : F) (e : ε) :
    ResultFuture.isTerminated termF
        (ResultFuture.fromResult (.error e) : ResultFuture F ε) = true ∧
    ResultFuture.isTerminated termF (⟨.error none⟩ : ResultFuture F ε) = true ∧
    ResultFuture.isTerminated termF
        (ResultFuture.fromResult (.ok f) : ResultFuture F ε) = termF f :=
  ⟨rfl, rfl, rfl⟩

end FuturesRs
